import Mathlib

/-!
Verification of the dataset-cleaning pipeline of the repository
(`src/EDA.py` and `src/App.py`).

The pipeline is shallowly embedded: a dataframe is a list of rows, a row a
record of optional cell values (a `none` field models an absent column, a
`some Value.na` field a present but missing — NaN/NaT — cell).  Every step
of `EDA.py`'s cleaning section (lines 30–87) is translated into an
executable Lean function, and the claims of the specification are settled
as theorems about those functions.
-/

set_option autoImplicit false

attribute [local semireducible] Rat.add Rat.mul Rat.sub Rat.inv

namespace MovieEDA

/-- A cell value of the dataframe: `na` is the missing marker (NaN/NaT),
`str` a string cell, `num` a numeric cell (floats are modelled as
rationals). -/
inductive Value where
  | na : Value
  | str (s : String) : Value
  | num (q : ℚ) : Value
  deriving DecidableEq, Repr

/-- One dataframe row.  Each field is `none` when the column is absent from
the dataframe and `some v` when present with cell value `v`.  The columns
are the ones named anywhere in `EDA.py` / `App.py`. -/
structure Row where
  title : Option Value
  release_Date : Option Value
  vote_Average : Option Value
  vote_Count : Option Value
  popularity : Option Value
  genre : Option Value
  overview : Option Value
  original_Language : Option Value
  poster_Url : Option Value
  vote_Average_Category : Option Value
  deriving DecidableEq, Repr

/-! ### Character/string helpers

`String.splitOn` and friends are reimplemented structurally over `List
Char` so that every definition evaluates inside the kernel. -/

/-- Split a character list at every occurrence of the single character `c`
(the semantics of Python `s.split(c)` for a one-character separator). -/
def splitOnChar (c : Char) : List Char → List (List Char)
  | [] => [[]]
  | ch :: rest =>
    let r := splitOnChar c rest
    if ch = c then [] :: r
    else
      match r with
      | [] => [[ch]]
      | h :: t => (ch :: h) :: t

/-- Split a character list at every (non-overlapping, leftmost-first)
occurrence of the two-character separator `", "`, as Python
`s.split(', ')` does. -/
def splitCommaSpaceAux : List Char → List Char → List String
  | acc, [] => [String.mk acc.reverse]
  | acc, ',' :: ' ' :: rest => String.mk acc.reverse :: splitCommaSpaceAux [] rest
  | acc, ch :: rest => splitCommaSpaceAux (ch :: acc) rest

/-- Python `s.split(', ')`: the genre tokenisation of `EDA.py` line 85 and
`App.py` line 27. -/
def pySplitCommaSpace (s : String) : List String :=
  splitCommaSpaceAux [] s.toList

/-- Whether every character of the list is a decimal digit. -/
def allDigits (cs : List Char) : Bool :=
  cs.all Char.isDigit

/-- Numeric value of a list of decimal digits (most significant first). -/
def natOfDigits (cs : List Char) : Nat :=
  cs.foldl (fun n ch => 10 * n + (ch.toNat - 48)) 0

/-! ### Per-value coercions

`pd.to_datetime(·, errors=...)` followed by `.dt.year`, and
`pd.to_numeric(·, errors=...)`, modelled per cell value.  The modelled
string grammars are the ones exercised by this dataset: ISO-style
`YYYY[-MM[-DD]]` dates and optionally-signed decimal numerals with an
optional fractional part. -/

/-- The error-handling mode of the pandas coercion APIs: with
`raiseMode` an unparsable value raises, with `coerceMode` it becomes the
missing marker.  The repository always passes `errors='coerce'`. -/
inductive ErrMode where
  | raiseMode : ErrMode
  | coerceMode : ErrMode
  deriving DecidableEq, Repr

/-- Parse an ISO-style date string (`YYYY`, `YYYY-MM` or `YYYY-MM-DD`)
and return its year. -/
def parseDateChars (cs : List Char) : Option Int :=
  match splitOnChar '-' cs with
  | [y] =>
    if y.length = 4 ∧ allDigits y then some (natOfDigits y : Int) else none
  | [y, m] =>
    if y.length = 4 ∧ allDigits y ∧ m ≠ [] ∧ allDigits m ∧
        1 ≤ natOfDigits m ∧ natOfDigits m ≤ 12 then
      some (natOfDigits y : Int)
    else none
  | [y, m, d] =>
    if y.length = 4 ∧ allDigits y ∧ m ≠ [] ∧ allDigits m ∧
        1 ≤ natOfDigits m ∧ natOfDigits m ≤ 12 ∧
        d ≠ [] ∧ allDigits d ∧ 1 ≤ natOfDigits d ∧ natOfDigits d ≤ 31 then
      some (natOfDigits y : Int)
    else none
  | _ => none

/-- Year of a date string, if it parses. -/
def parseDateString (s : String) : Option Int :=
  parseDateChars s.toList

/-- Parse an unsigned decimal numeral with optional fractional part
(`"7"`, `"7.5"`, `".5"`, `"7."`). -/
def parseUnsignedRat (cs : List Char) : Option ℚ :=
  match splitOnChar '.' cs with
  | [ip] =>
    if ip ≠ [] ∧ allDigits ip then some (natOfDigits ip : ℚ) else none
  | [ip, fp] =>
    if (ip ≠ [] ∨ fp ≠ []) ∧ allDigits ip ∧ allDigits fp then
      some ((natOfDigits ip : ℚ) + (natOfDigits fp : ℚ) / 10 ^ fp.length)
    else none
  | _ => none

/-- Parse an optionally-signed decimal numeral. -/
def parseRat (s : String) : Option ℚ :=
  match s.toList with
  | '-' :: rest => (parseUnsignedRat rest).map (fun q => -q)
  | '+' :: rest => parseUnsignedRat rest
  | cs => parseUnsignedRat cs

/-- Nanoseconds per day: `pd.to_datetime` interprets a bare number as a
count of nanoseconds since the Unix epoch. -/
def nsPerDay : ℚ := 86400000000000

/-- Year of the civil (proleptic Gregorian) date that lies `z` days after
1970-01-01 (standard days-to-civil conversion). -/
def yearOfCivilDays (z : Int) : Int :=
  let z' := z + 719468
  let era := z'.fdiv 146097
  let doe := z' - era * 146097
  let yoe := (doe - doe.fdiv 1460 + doe.fdiv 36524 - doe.fdiv 146096).fdiv 365
  let y := yoe + era * 400
  let doy := doe - (365 * yoe + yoe.fdiv 4 - yoe.fdiv 100)
  let mp := (5 * doy + 2).fdiv 153
  let m := if mp < 10 then mp + 3 else mp - 9
  if m ≤ 2 then y + 1 else y

/-- The composite of `pd.to_datetime(v, errors='coerce')` and `.dt.year`
(`EDA.py` lines 30–31): a string is parsed as a date, a number is read as
nanoseconds since the epoch, anything unparsable becomes missing. -/
def toDatetimeYear : Value → Value
  | .na => .na
  | .num q => .num ((yearOfCivilDays ⌊q / nsPerDay⌋ : Int) : ℚ)
  | .str s =>
    match parseDateString s with
    | some y => .num ((y : Int) : ℚ)
    | none => .na

/-- The per-value semantics of `pd.to_numeric(v, errors='coerce')`
(`EDA.py` lines 44–46). -/
def toNumericVal : Value → Value
  | .na => .na
  | .num q => .num q
  | .str s =>
    match parseRat s with
    | some q => .num q
    | none => .na

/-- The `pd.to_numeric` API with its `errors` parameter: in `raiseMode` an
unparsable string is an error, in `coerceMode` it degrades to missing. -/
def pdToNumeric (m : ErrMode) : Value → Except String Value
  | .na => .ok .na
  | .num q => .ok (.num q)
  | .str s =>
    match parseRat s with
    | some q => .ok (.num q)
    | none =>
      match m with
      | .coerceMode => .ok .na
      | .raiseMode => .error ("Unable to parse string " ++ s)

/-- The `pd.to_datetime(...).dt.year` composite with the `errors`
parameter of `pd.to_datetime`: in `raiseMode` an unparsable string is an
error, in `coerceMode` it degrades to missing. -/
def pdToDatetimeYear (m : ErrMode) : Value → Except String Value
  | .na => .ok .na
  | .num q => .ok (.num ((yearOfCivilDays ⌊q / nsPerDay⌋ : Int) : ℚ))
  | .str s =>
    match parseDateString s with
    | some y => .ok (.num ((y : Int) : ℚ))
    | none =>
      match m with
      | .coerceMode => .ok .na
      | .raiseMode => .error ("Unknown datetime string format " ++ s)

/-! ### Quantile categorization (`categorize_col`, `EDA.py` lines 51–67) -/

/-- Linear-interpolation empirical quantile of an already sorted list, the
semantics of `Series.quantile(q)` (numpy `'linear'` interpolation): with
`h = q * (n - 1)`, interpolate between the values at positions `⌊h⌋` and
`⌊h⌋ + 1`. -/
def quantileSorted (xs : List ℚ) (q : ℚ) : ℚ :=
  let h := q * ((xs.length : ℚ) - 1)
  let i := (⌊h⌋).toNat
  let xi := xs.getD i 0
  let xi1 := xs.getD (i + 1) xi
  xi + (h - (⌊h⌋ : ℚ)) * (xi1 - xi)

/-- The quantile probabilities of `EDA.py` line 54. -/
def quantilePoints : List ℚ := [0, 1/4, 1/2, 3/4, 1]

/-- Python `sorted(set(l))`: the distinct elements of `l` in increasing
order (`sorted(valid.quantile(...).unique())`, `EDA.py` line 54). -/
def sortDedup (l : List ℚ) : List ℚ :=
  l.dedup.insertionSort (· ≤ ·)

/-- The bin edges of `categorize_col`: the five quantiles of the
non-missing column values, deduplicated and sorted.  The quantiles of an
empty series are all NaN, which the dedup collapses to a single
(non-comparable) edge; this is modelled by returning a list of fewer than
two edges, which makes the caller skip categorization. -/
def computeEdges (valid : List ℚ) : List ℚ :=
  if valid = [] then []
  else sortDedup (quantilePoints.map (quantileSorted (valid.insertionSort (· ≤ ·))))

/-- Interval lookup of `pd.cut(..., include_lowest=True)`: the first bin
is the closed interval `[e₀, e₁]`, every later bin the half-open interval
`(eᵢ, eᵢ₊₁]`; a value in no bin, or with fewer labels than bins, gets the
missing marker. -/
def binOf : ℚ → List ℚ → List String → ℚ → Bool → Value
  | lo, hi :: es, lab :: ls, q, first =>
    if (if first then lo ≤ q else lo < q) ∧ q ≤ hi then .str lab
    else binOf hi es ls q false
  | _, _, _, _, _ => .na

/-- The per-value semantics of `pd.cut(series, bins=edges, labels=...,
include_lowest=True)`: non-numeric (missing) values get no category. -/
def cutVal (edges : List ℚ) (labels : List String) : Value → Value
  | .num q =>
    match edges with
    | e0 :: es => binOf e0 es labels q true
    | [] => .na
  | _ => .na

/-- The `categorize_col(df, col, labels)` function of `EDA.py` lines
51–67, parametrized by the accessor of the column `col` (`get`/`set`) and
the setter of the derived column `f"{col}_Category"` (`setCat`): coerce
the column to numeric, compute the deduplicated quantile edges of its
non-missing values, and either skip (fewer than two distinct edges) or
assign to each row the label of the bin its value falls in, with the label
list truncated to the number of bins. -/
def categorize_col (get : Row → Option Value) (set setCat : Option Value → Row → Row)
    (labels : List String) (rows : List Row) : List Row :=
  let rows' := rows.map (fun r => set ((get r).map toNumericVal) r)
  let valid := rows'.filterMap (fun r =>
    match get r with
    | some (.num q) => some q
    | _ => none)
  let edges := computeEdges valid
  if edges.length < 2 then rows'
  else rows'.map (fun r => setCat ((get r).map (cutVal edges (labels.take (edges.length - 1)))) r)

/-- Accessor of the `Vote_Average` column. -/
def vaGet (r : Row) : Option Value := r.vote_Average

/-- Setter of the `Vote_Average` column. -/
def vaSet (v : Option Value) (r : Row) : Row := { r with vote_Average := v }

/-- Setter of the derived `Vote_Average_Category` column. -/
def vaCatSet (v : Option Value) (r : Row) : Row := { r with vote_Average_Category := v }

/-- The label list of `EDA.py` line 69. -/
def edaLabels : List String := ["not_popular", "below_avg", "average", "popular"]

/-! ### The remaining pipeline steps -/

/-- The cells of a row, in column order. -/
def rowFields (r : Row) : List (Option Value) :=
  [r.title, r.release_Date, r.vote_Average, r.vote_Count, r.popularity,
   r.genre, r.overview, r.original_Language, r.poster_Url, r.vote_Average_Category]

/-- Whether some present cell of the row is missing. -/
def hasNa (r : Row) : Bool :=
  (rowFields r).any (fun o => o = some Value.na)

/-- Date normalization (`EDA.py` lines 30–31): replace `Release_Date` by
its year, unparsable dates becoming missing. -/
def dateRow (r : Row) : Row :=
  { r with release_Date := r.release_Date.map toDatetimeYear }

/-- Date normalization, lifted to the dataframe. -/
def dateStep (rows : List Row) : List Row := rows.map dateRow

/-- Column pruning (`EDA.py` lines 34–35): drop `Overview`,
`Original_Language` and `Poster_Url`, ignoring absent columns. -/
def pruneRow (r : Row) : Row :=
  { r with overview := none, original_Language := none, poster_Url := none }

/-- Column pruning, lifted to the dataframe. -/
def pruneStep (rows : List Row) : List Row := rows.map pruneRow

/-- Numeric coercion (`EDA.py` lines 44–46): coerce `Vote_Average`,
`Vote_Count` and `Popularity` to numbers, uncoercible cells becoming
missing. -/
def coerceRow (r : Row) : Row :=
  { r with
    vote_Average := r.vote_Average.map toNumericVal
    vote_Count := r.vote_Count.map toNumericVal
    popularity := r.popularity.map toNumericVal }

/-- Numeric coercion, lifted to the dataframe. -/
def coerceStep (rows : List Row) : List Row := rows.map coerceRow

/-- Row elimination, first half (`EDA.py` line 75): `df.dropna()` keeps
exactly the rows without missing cells. -/
def dropnaStep (rows : List Row) : List Row :=
  rows.filter (fun r => !hasNa r)

/-- Duplicate elimination (`EDA.py` line 76): `df.drop_duplicates()`
keeps the first occurrence of every row value.  `seen` accumulates the row
values already emitted. -/
def dropDupsAux : List Row → List Row → List Row
  | _, [] => []
  | seen, r :: rs =>
    if r ∈ seen then dropDupsAux seen rs
    else r :: dropDupsAux (r :: seen) rs

/-- Duplicate elimination from an empty memory. -/
def dropDups (rows : List Row) : List Row := dropDupsAux [] rows

/-- Python `str(v)`: the string rendering `astype(str)` applies to the
`Genre` column before splitting; a missing cell renders as `"nan"`. -/
def valueToStr : Value → String
  | .na => "nan"
  | .str s => s
  | .num q => toString q

/-- Genre explosion of one row (`EDA.py` lines 84–87): split the `Genre`
cell on `", "` and emit one copy of the row per token; a row of a
dataframe without a `Genre` column passes through unchanged. -/
def explodeRow (r : Row) : List Row :=
  match r.genre with
  | none => [r]
  | some v => (pySplitCommaSpace (valueToStr v)).map (fun t => { r with genre := some (.str t) })

/-- Genre explosion, lifted to the dataframe. -/
def explodeStep : List Row → List Row
  | [] => []
  | r :: rs => explodeRow r ++ explodeStep rs

/-! ### The full pipelines -/

/-- The cleaning pipeline of `EDA.py` up to (excluding) row elimination,
in the code's order: date normalization (line 30), column pruning (line
35), numeric coercion (lines 44–46), quantile categorization (line 70). -/
def beforeDropna (rows : List Row) : List Row :=
  categorize_col vaGet vaSet vaCatSet edaLabels (coerceStep (pruneStep (dateStep rows)))

/-- The full cleaning pipeline of `EDA.py` (lines 30–87): date
normalization, column pruning, numeric coercion, quantile categorization,
missing-row elimination, duplicate elimination, genre explosion
(`reset_index` only renumbers rows and is the identity on a row list). -/
def pipeline (rows : List Row) : List Row :=
  explodeStep (dropDups (dropnaStep (beforeDropna rows)))

/-- The spec's ordered composition of the six steps (spec §4.1), which
puts numeric coercion (step 2) before column pruning (step 3); the code
prunes first.  Modelled from the spec's step order for comparison with
`pipeline`. -/
def pipeline_spec_order (rows : List Row) : List Row :=
  explodeStep (dropDups (dropnaStep
    (categorize_col vaGet vaSet vaCatSet edaLabels (pruneStep (coerceStep (dateStep rows))))))

/-- The `load_data` function of `App.py` (lines 17–30): date
normalization, numeric coercion of `Vote_Count` and `Popularity` only,
genre explosion — no pruning, no `Vote_Average` coercion, no
categorization, no row elimination. -/
def load_data (rows : List Row) : List Row :=
  let d1 := rows.map (fun r => { r with release_Date := r.release_Date.map toDatetimeYear })
  let d2 := d1.map (fun r => { r with vote_Count := r.vote_Count.map toNumericVal })
  let d3 := d2.map (fun r => { r with popularity := r.popularity.map toNumericVal })
  explodeStep d3

/-! ### Basic lemmas about the step combinators -/

theorem forall_mem_map {α β : Type} (f : α → β) (l : List α) (P : β → Prop)
    (h : ∀ a, P (f a)) : ∀ x ∈ l.map f, P x := by
  intro x hx
  rcases List.mem_map.mp hx with ⟨a, _, rfl⟩
  exact h a

/-- Membership in the result of duplicate elimination: exactly the values
of the input not already in the memory. -/
theorem mem_dropDupsAux (l : List Row) :
    ∀ (seen : List Row) (x : Row), x ∈ dropDupsAux seen l ↔ x ∈ l ∧ x ∉ seen := by
  induction l with
  | nil => intro seen x; simp [dropDupsAux]
  | cons r rs ih =>
    intro seen x
    by_cases hr : r ∈ seen
    · simp only [dropDupsAux, if_pos hr, ih]
      constructor
      · rintro ⟨h1, h2⟩; exact ⟨List.mem_cons_of_mem _ h1, h2⟩
      · rintro ⟨h1, h2⟩
        rcases List.mem_cons.mp h1 with rfl | h1
        · exact absurd hr h2
        · exact ⟨h1, h2⟩
    · simp only [dropDupsAux, if_neg hr, List.mem_cons, ih]
      constructor
      · rintro (rfl | ⟨h1, h2⟩)
        · exact ⟨Or.inl rfl, hr⟩
        · refine ⟨Or.inr h1, fun hx => h2 (by simp [hx])⟩
      · rintro ⟨rfl | h1, h2⟩
        · exact Or.inl rfl
        · by_cases hxr : x = r
          · exact Or.inl hxr
          · exact Or.inr ⟨h1, by simp [hxr, h2]⟩

theorem mem_dropDups {l : List Row} {x : Row} : x ∈ dropDups l ↔ x ∈ l := by
  simp [dropDups, mem_dropDupsAux]

/-- Duplicate elimination never emits the same row value twice. -/
theorem nodup_dropDupsAux (l : List Row) : ∀ seen : List Row, (dropDupsAux seen l).Nodup := by
  induction l with
  | nil => intro seen; simp [dropDupsAux]
  | cons r rs ih =>
    intro seen
    by_cases hr : r ∈ seen
    · simpa [dropDupsAux, if_pos hr] using ih seen
    · simp only [dropDupsAux, if_neg hr]
      refine List.Pairwise.cons ?_ (ih (r :: seen))
      intro x hx
      have := (mem_dropDupsAux rs (r :: seen) x).mp hx
      intro hxy
      exact this.2 (by simp [hxy])

theorem nodup_dropDups (l : List Row) : (dropDups l).Nodup :=
  nodup_dropDupsAux l []

theorem mem_explodeStep {l : List Row} {x : Row} :
    x ∈ explodeStep l ↔ ∃ r ∈ l, x ∈ explodeRow r := by
  induction l with
  | nil => simp [explodeStep]
  | cons r rs ih => simp [explodeStep, ih, List.mem_append]

/-- Row shapes produced by the coercions. -/
def numShape (o : Option Value) : Prop :=
  o = none ∨ o = some Value.na ∨ ∃ q, o = some (Value.num q)

theorem toNumericVal_shape (v : Value) :
    toNumericVal v = Value.na ∨ ∃ q, toNumericVal v = Value.num q := by
  cases v with
  | na => exact Or.inl rfl
  | num q => exact Or.inr ⟨q, rfl⟩
  | str s =>
    cases h : parseRat s with
    | none => simp [toNumericVal, h]
    | some q => simp [toNumericVal, h]

theorem toDatetimeYear_shape (v : Value) :
    toDatetimeYear v = Value.na ∨ ∃ q, toDatetimeYear v = Value.num q := by
  cases v with
  | na => exact Or.inl rfl
  | num q => exact Or.inr ⟨_, rfl⟩
  | str s =>
    cases h : parseDateString s with
    | none => simp [toDatetimeYear, h]
    | some q => simp [toDatetimeYear, h]

theorem numShape_map_toNumericVal (o : Option Value) : numShape (o.map toNumericVal) := by
  cases o with
  | none => exact Or.inl rfl
  | some v =>
    rcases toNumericVal_shape v with h | ⟨q, h⟩
    · exact Or.inr (Or.inl (by simp [h]))
    · exact Or.inr (Or.inr ⟨q, by simp [h]⟩)

theorem numShape_map_toDatetimeYear (o : Option Value) : numShape (o.map toDatetimeYear) := by
  cases o with
  | none => exact Or.inl rfl
  | some v =>
    rcases toDatetimeYear_shape v with h | ⟨q, h⟩
    · exact Or.inr (Or.inl (by simp [h]))
    · exact Or.inr (Or.inr ⟨q, by simp [h]⟩)

/-- The four coerced columns of every row reaching row elimination are
absent, missing, or numeric. -/
def numShape4 (r : Row) : Prop :=
  numShape r.release_Date ∧ numShape r.vote_Average ∧ numShape r.vote_Count ∧
    numShape r.popularity

/-- Any member of a `categorize_col` output is the column-coercion of an
input row, possibly with the derived category column overwritten. -/
theorem mem_categorize_col {get : Row → Option Value} {set setCat : Option Value → Row → Row}
    {labels : List String} {rows : List Row} {x : Row}
    (hx : x ∈ categorize_col get set setCat labels rows) :
    (∃ r ∈ rows, x = set ((get r).map toNumericVal) r) ∨
      (∃ r ∈ rows, ∃ v, x = setCat v (set ((get r).map toNumericVal) r)) := by
  simp only [categorize_col] at hx
  split at hx
  · rcases List.mem_map.mp hx with ⟨r, hr, rfl⟩
    exact Or.inl ⟨r, hr, rfl⟩
  · rcases List.mem_map.mp hx with ⟨y, hy, rfl⟩
    rcases List.mem_map.mp hy with ⟨r, hr, rfl⟩
    exact Or.inr ⟨r, hr, _, rfl⟩

theorem coercedSteps_shape (d : List Row) :
    ∀ r ∈ coerceStep (pruneStep (dateStep d)), numShape4 r := by
  intro r hr
  rcases List.mem_map.mp hr with ⟨r1, hr1, rfl⟩
  rcases List.mem_map.mp hr1 with ⟨r2, hr2, rfl⟩
  rcases List.mem_map.mp hr2 with ⟨r3, hr3, rfl⟩
  exact ⟨numShape_map_toDatetimeYear _, numShape_map_toNumericVal _,
    numShape_map_toNumericVal _, numShape_map_toNumericVal _⟩

theorem beforeDropna_shape (d : List Row) : ∀ r ∈ beforeDropna d, numShape4 r := by
  intro r hr
  rcases mem_categorize_col hr with ⟨r0, hr0, rfl⟩ | ⟨r0, hr0, v, rfl⟩
  · have h0 := coercedSteps_shape d r0 hr0
    exact ⟨h0.1, numShape_map_toNumericVal _, h0.2.2.1, h0.2.2.2⟩
  · have h0 := coercedSteps_shape d r0 hr0
    exact ⟨h0.1, numShape_map_toNumericVal _, h0.2.2.1, h0.2.2.2⟩

/-- Every row surviving row elimination and duplicate elimination has no
missing cell and numeric-or-absent coerced columns. -/
theorem mem_cleanState {d : List Row} {x : Row}
    (hx : x ∈ dropDups (dropnaStep (beforeDropna d))) :
    hasNa x = false ∧ numShape4 x := by
  have hx' := mem_dropDups.mp hx
  have h2 := List.mem_filter.mp hx'
  exact ⟨by simpa using h2.2, beforeDropna_shape d x h2.1⟩

theorem hasNa_false_iff (r : Row) :
    hasNa r = false ↔ ∀ o ∈ rowFields r, o ≠ some Value.na := by
  simp [hasNa, List.any_eq_true]

/-- Genre explosion preserves freedom from missing cells: the emitted
rows agree with the source row except for a string `Genre` cell. -/
theorem hasNa_explodeRow {r x : Row} (hx : x ∈ explodeRow r) (h : hasNa r = false) :
    hasNa x = false := by
  unfold explodeRow at hx
  cases hg : r.genre with
  | none =>
    rw [hg] at hx
    simp only [List.mem_singleton] at hx
    subst hx
    exact h
  | some v =>
    rw [hg] at hx
    rcases List.mem_map.mp hx with ⟨t, _, rfl⟩
    rw [hasNa_false_iff] at h ⊢
    intro o ho
    simp only [rowFields, List.mem_cons, List.not_mem_nil, or_false] at ho ⊢
    rcases ho with h1 | h1 | h1 | h1 | h1 | h1 | h1 | h1 | h1 | h1 <;> subst h1
    · exact h r.title (by simp [rowFields])
    · exact h r.release_Date (by simp [rowFields])
    · exact h r.vote_Average (by simp [rowFields])
    · exact h r.vote_Count (by simp [rowFields])
    · exact h r.popularity (by simp [rowFields])
    · simp
    · exact h r.overview (by simp [rowFields])
    · exact h r.original_Language (by simp [rowFields])
    · exact h r.poster_Url (by simp [rowFields])
    · exact h r.vote_Average_Category (by simp [rowFields])

/-! ### Concrete example rows -/

/-- A row of the six pipeline-relevant columns (the three pruned columns
absent, no derived category yet). -/
def mkRow (t rd va vc pop g : Option Value) : Row :=
  ⟨t, rd, va, vc, pop, g, none, none, none, none⟩

/-- The raw input row of the spec's end-to-end scenario (§8). -/
def sampleRawRow : Row :=
  ⟨some (.str "X"), some (.str "2020-05-01"), some (.str "7.5"), some (.str "100"),
   some (.str "50.2"), some (.str "Drama, Romance"), some (.str "ov"), some (.str "en"),
   some (.str "url"), none⟩

/-- The first cleaned row the pipeline produces from `sampleRawRow`. -/
def sampleCleanRow : Row :=
  mkRow (some (.str "X")) (some (.num 2020)) (some (.num (15/2))) (some (.num 100))
    (some (.num (251/5))) (some (.str "Drama"))

/-- A valid row whose `Genre` repeats one token. -/
def dupGenreRow : Row :=
  mkRow (some (.str "X")) (some (.str "2020-01-01")) (some (.num 7)) (some (.num 10))
    (some (.num 5)) (some (.str "Action, Action"))

/-- A valid single-genre row. -/
def dramaRow : Row :=
  mkRow (some (.str "X")) (some (.str "2020-05-01")) (some (.num 7)) (some (.num 10))
    (some (.num 5)) (some (.str "Drama"))

/-- A valid row with genre `"Action, Comedy"`. -/
def acRow : Row :=
  mkRow (some (.str "X")) (some (.str "2020-01-01")) (some (.num 7)) (some (.num 10))
    (some (.num 5)) (some (.str "Action, Comedy"))

/-! ### C1: no missing value survives the pipeline -/

/-- C1: after the full cleaning pipeline runs on any input dataset, every
row of the output has a non-missing value in every retained field,
including the derived `Vote_Average_Category` field when it was
created. -/
theorem pipeline_no_missing (d : List Row) (x : Row) (hx : x ∈ pipeline d) :
    hasNa x = false := by
  rcases mem_explodeStep.mp hx with ⟨r, hr, hxr⟩
  exact hasNa_explodeRow hxr (mem_cleanState hr).1

/-- Witness for C1 at the spec's end-to-end scenario row. -/
theorem pipeline_no_missing_witness : hasNa sampleCleanRow = false :=
  pipeline_no_missing [sampleRawRow] sampleCleanRow (by decide)

/-! ### C2: duplicate rows can reappear after genre explosion -/

/-- Counterexample to C2: a row whose `Genre` repeats a token explodes,
after duplicate elimination, into two fully identical output rows. -/
theorem pipeline_duplicate_output_rows : ¬ (pipeline [dupGenreRow]).Pairwise (· ≠ ·) := by
  decide

/-- C2 amended: no two rows are fully identical in the state produced by
duplicate elimination — the state genre explosion receives; the explosion
step itself can reintroduce fully identical rows when a `Genre` value
repeats a token. -/
theorem dedup_state_pairwise_ne (d : List Row) :
    (dropDups (dropnaStep (beforeDropna d))).Pairwise (· ≠ ·) :=
  nodup_dropDups _

/-! ### C4: genre explosion is correct -/

/-- C4: a row whose `Genre` holds `N` comma-space-separated tokens
explodes into exactly `N` rows, each identical to the original in every
field except `Genre`, which holds the corresponding single token. -/
theorem explodeRow_splits (r : Row) (g : String) (hg : r.genre = some (Value.str g)) :
    explodeRow r =
      (pySplitCommaSpace g).map (fun t => { r with genre := some (Value.str t) }) ∧
    (explodeRow r).length = (pySplitCommaSpace g).length := by
  have h1 : explodeRow r =
      (pySplitCommaSpace g).map (fun t => { r with genre := some (Value.str t) }) := by
    unfold explodeRow
    rw [hg]
    rfl
  exact ⟨h1, by rw [h1, List.length_map]⟩

/-- Witness for C4: `"Action, Comedy"` yields exactly the two rows that
differ from the source row only in `Genre`. -/
theorem explodeRow_splits_witness :
    acRow.genre = some (Value.str "Action, Comedy") ∧
    explodeRow acRow =
      (pySplitCommaSpace "Action, Comedy").map
        (fun t => { acRow with genre := some (Value.str t) }) ∧
    (explodeRow acRow).length = 2 :=
  ⟨rfl, (explodeRow_splits acRow "Action, Comedy" rfl).1,
   by rw [(explodeRow_splits acRow "Action, Comedy" rfl).2]; decide⟩

/-! ### C6: per-value coercion never raises -/

/-- C6: for every raw cell value, numeric coercion and date normalization
with `errors='coerce'` — the mode the repository always passes — return
a value (never an error), and any uncoercible value maps to the missing
marker: the result is always missing or numeric. -/
theorem coercion_never_raises (v : Value) :
    pdToNumeric ErrMode.coerceMode v = Except.ok (toNumericVal v) ∧
    pdToDatetimeYear ErrMode.coerceMode v = Except.ok (toDatetimeYear v) ∧
    (toNumericVal v = Value.na ∨ ∃ q, toNumericVal v = Value.num q) ∧
    (toDatetimeYear v = Value.na ∨ ∃ q, toDatetimeYear v = Value.num q) := by
  refine ⟨?_, ?_, toNumericVal_shape v, toDatetimeYear_shape v⟩
  · cases v with
    | na => rfl
    | num q => rfl
    | str s =>
      simp only [pdToNumeric, toNumericVal]
      cases parseRat s <;> rfl
  · cases v with
    | na => rfl
    | num q => rfl
    | str s =>
      simp only [pdToDatetimeYear, toDatetimeYear]
      cases parseDateString s <;> rfl

/-! ### C9: the spec's step order and the code's step order agree -/

theorem pruneStep_coerceStep_comm (l : List Row) :
    pruneStep (coerceStep l) = coerceStep (pruneStep l) := by
  simp only [pruneStep, coerceStep]
  rw [List.map_map, List.map_map]
  rfl

/-- C9: applying the six steps in the spec's order (coercion before
pruning) to any input dataset yields the same cleaned output the code
produces, although the code prunes columns before coercing numerics. -/
theorem pipeline_spec_order_eq (d : List Row) : pipeline_spec_order d = pipeline d := by
  unfold pipeline pipeline_spec_order beforeDropna
  rw [pruneStep_coerceStep_comm]

/-! ### C5: degenerate numeric columns skip categorization -/

theorem getD_mem_of_lt {α : Type} (l : List α) (n : ℕ) (d : α) (h : n < l.length) :
    l.getD n d ∈ l := by
  induction l generalizing n with
  | nil => simp at h
  | cons a t ih =>
    cases n with
    | zero => simp [List.getD]
    | succ m =>
      have := ih m (by simpa using Nat.lt_of_succ_lt_succ h)
      simp only [List.getD_cons_succ]
      exact List.mem_cons_of_mem _ this

theorem getD_mem_or_default {α : Type} (l : List α) (n : ℕ) (d : α) :
    l.getD n d ∈ l ∨ l.getD n d = d := by
  by_cases h : n < l.length
  · exact Or.inl (getD_mem_of_lt l n d h)
  · right
    rw [List.getD_eq_default]
    omega

/-- A quantile of a constant nonempty list is the constant. -/
theorem quantileSorted_const {xs : List ℚ} {c : ℚ} (hne : xs ≠ [])
    (hc : ∀ x ∈ xs, x = c) {q : ℚ} (_hq0 : 0 ≤ q) (hq1 : q ≤ 1) :
    quantileSorted xs q = c := by
  have hn : 1 ≤ xs.length := List.length_pos.mpr hne
  have hn1 : (0:ℚ) ≤ (xs.length : ℚ) - 1 := by
    have : (1:ℚ) ≤ (xs.length : ℚ) := by exact_mod_cast hn
    linarith
  have hh1 : q * ((xs.length : ℚ) - 1) ≤ (xs.length : ℚ) - 1 := by
    nlinarith
  have hfle : ⌊q * ((xs.length : ℚ) - 1)⌋ ≤ (xs.length : ℤ) - 1 := by
    have h2 : ((xs.length : ℤ) - 1 : ℤ) = ⌊((xs.length : ℚ) - 1)⌋ := by
      rw [show ((xs.length : ℚ) - 1) = (((xs.length : ℤ) - 1 : ℤ) : ℚ) by push_cast; ring]
      rw [Int.floor_intCast]
    rw [h2]
    exact Int.floor_le_floor hh1
  have hi : (⌊q * ((xs.length : ℚ) - 1)⌋).toNat < xs.length := by
    have := Int.toNat_le_toNat hfle
    have h3 : ((xs.length : ℤ) - 1).toNat = xs.length - 1 := by omega
    omega
  have hxi : xs.getD (⌊q * ((xs.length : ℚ) - 1)⌋).toNat 0 = c :=
    hc _ (getD_mem_of_lt _ _ _ hi)
  have hxi1 : xs.getD ((⌊q * ((xs.length : ℚ) - 1)⌋).toNat + 1) c = c := by
    rcases getD_mem_or_default xs ((⌊q * ((xs.length : ℚ) - 1)⌋).toNat + 1) c with h | h
    · exact hc _ h
    · exact h
  simp only [quantileSorted]
  rw [hxi, hxi1]
  ring

theorem length_le_one_of_nodup_const {l : List ℚ} {c : ℚ} (hnd : l.Nodup)
    (hc : ∀ x ∈ l, x = c) : l.length ≤ 1 := by
  match l with
  | [] => simp
  | [a] => simp
  | a :: b :: t =>
    exfalso
    have ha : a = c := hc a (by simp)
    have hb : b = c := hc b (by simp)
    rcases List.pairwise_cons.mp hnd with ⟨h1, _⟩
    exact h1 b (by simp) (ha.trans hb.symm)

/-- The computed bin edges of a column whose non-missing values are all
equal collapse to fewer than two distinct edges. -/
theorem computeEdges_degenerate {valid : List ℚ} {c : ℚ} (hc : ∀ q ∈ valid, q = c) :
    (computeEdges valid).length < 2 := by
  by_cases hv : valid = []
  · simp [computeEdges, hv]
  · have hpts : ∀ p ∈ quantilePoints, 0 ≤ p ∧ p ≤ 1 := by decide
    have hs_mem : ∀ x ∈ valid.insertionSort (· ≤ ·), x = c := by
      intro x hx
      exact hc x ((List.mem_insertionSort _).mp hx)
    have hs_ne : valid.insertionSort (· ≤ ·) ≠ [] := by
      intro h
      apply hv
      have := List.length_insertionSort (· ≤ ·) valid
      rw [h] at this
      exact List.length_eq_zero.mp this.symm
    have hq5 : ∀ x ∈ quantilePoints.map (quantileSorted (valid.insertionSort (· ≤ ·))),
        x = c := by
      intro x hx
      rcases List.mem_map.mp hx with ⟨p, hp, rfl⟩
      exact quantileSorted_const hs_ne hs_mem (hpts p hp).1 (hpts p hp).2
    have hedges : ∀ x ∈ computeEdges valid, x = c := by
      intro x hx
      simp only [computeEdges, if_neg hv, sortDedup] at hx
      exact hq5 x (List.mem_dedup.mp ((List.mem_insertionSort _).mp hx))
    have hnd : (computeEdges valid).Nodup := by
      simp only [computeEdges, if_neg hv, sortDedup]
      exact (List.perm_insertionSort _ _).nodup_iff.mpr (List.nodup_dedup _)
    have := length_le_one_of_nodup_const hnd hedges
    omega

/-- C5: for a numeric column whose non-missing values are all identical
— so that fewer than two distinct quantile edges exist — `categorize_col`
returns the dataset unchanged: no derived category column is added and
no error is raised. -/
theorem categorize_col_degenerate (rows : List Row) (labels : List String) (c : ℚ)
    (hnum : ∀ r ∈ rows, numShape (vaGet r))
    (hconst : ∀ r ∈ rows, ∀ q, vaGet r = some (Value.num q) → q = c) :
    categorize_col vaGet vaSet vaCatSet labels rows = rows := by
  have hrows' : rows.map (fun r => vaSet ((vaGet r).map toNumericVal) r) = rows := by
    have hpt : ∀ r ∈ rows, vaSet ((vaGet r).map toNumericVal) r = r := by
      intro r hr
      have heta : vaSet r.vote_Average r = r := rfl
      rcases hnum r hr with h | h | ⟨q, h⟩
      · have h' : r.vote_Average = none := h
        show vaSet ((r.vote_Average).map toNumericVal) r = r
        rw [h']
        show vaSet none r = r
        rw [← h']
        exact heta
      · have h' : r.vote_Average = some Value.na := h
        show vaSet ((r.vote_Average).map toNumericVal) r = r
        rw [h']
        show vaSet (some Value.na) r = r
        rw [← h']
        exact heta
      · have h' : r.vote_Average = some (Value.num q) := h
        show vaSet ((r.vote_Average).map toNumericVal) r = r
        rw [h']
        show vaSet (some (Value.num q)) r = r
        rw [← h']
        exact heta
    calc rows.map (fun r => vaSet ((vaGet r).map toNumericVal) r)
        = rows.map (fun r => r) := List.map_congr_left hpt
      _ = rows := List.map_id' rows
  simp only [categorize_col]
  rw [hrows']
  have hvalid : ∀ q ∈ rows.filterMap (fun r =>
      match vaGet r with
      | some (.num q) => some q
      | _ => none), q = c := by
    intro q hq
    rcases List.mem_filterMap.mp hq with ⟨r, hr, hfr⟩
    rcases hnum r hr with h | h | ⟨q', h⟩ <;> rw [h] at hfr
    · simp at hfr
    · simp at hfr
    · simp only [Option.some.injEq] at hfr
      exact hfr ▸ hconst r hr q' h
  rw [if_pos (computeEdges_degenerate hvalid)]

/-- Rows whose `Vote_Average` is constantly 5. -/
def constRows : List Row :=
  [mkRow (some (.str "A")) (some (.num 2000)) (some (.num 5)) (some (.num 1))
     (some (.num 2)) (some (.str "Drama")),
   mkRow (some (.str "B")) (some (.num 2001)) (some (.num 5)) (some (.num 3))
     (some (.num 4)) (some (.str "Action"))]

/-- Witness for C5 on a two-row constant column. -/
theorem categorize_col_degenerate_witness :
    categorize_col vaGet vaSet vaCatSet edaLabels constRows = constRows :=
  categorize_col_degenerate constRows edaLabels 5
    (by
      intro r hr
      simp only [constRows, List.mem_cons, List.not_mem_nil, or_false] at hr
      rcases hr with rfl | rfl
      · exact Or.inr (Or.inr ⟨5, rfl⟩)
      · exact Or.inr (Or.inr ⟨5, rfl⟩))
    (by
      intro r hr q h
      simp only [constRows, List.mem_cons, List.not_mem_nil, or_false] at hr
      rcases hr with rfl | rfl
      · have h5 : some (Value.num 5) = some (Value.num q) := h
        simpa using h5.symm
      · have h5 : some (Value.num 5) = some (Value.num q) := h
        simpa using h5.symm)

/-! ### C7: bucket edge policy on the spec's example column -/

/-- Ten rows whose `Vote_Average` column holds the values 1..10. -/
def tenVaRows : List Row :=
  [mkRow (some (.str "T")) (some (.num 2000)) (some (.num 1)) (some (.num 1)) (some (.num 1)) (some (.str "G")),
   mkRow (some (.str "T")) (some (.num 2000)) (some (.num 2)) (some (.num 1)) (some (.num 1)) (some (.str "G")),
   mkRow (some (.str "T")) (some (.num 2000)) (some (.num 3)) (some (.num 1)) (some (.num 1)) (some (.str "G")),
   mkRow (some (.str "T")) (some (.num 2000)) (some (.num 4)) (some (.num 1)) (some (.num 1)) (some (.str "G")),
   mkRow (some (.str "T")) (some (.num 2000)) (some (.num 5)) (some (.num 1)) (some (.num 1)) (some (.str "G")),
   mkRow (some (.str "T")) (some (.num 2000)) (some (.num 6)) (some (.num 1)) (some (.num 1)) (some (.str "G")),
   mkRow (some (.str "T")) (some (.num 2000)) (some (.num 7)) (some (.num 1)) (some (.num 1)) (some (.str "G")),
   mkRow (some (.str "T")) (some (.num 2000)) (some (.num 8)) (some (.num 1)) (some (.num 1)) (some (.str "G")),
   mkRow (some (.str "T")) (some (.num 2000)) (some (.num 9)) (some (.num 1)) (some (.num 1)) (some (.str "G")),
   mkRow (some (.str "T")) (some (.num 2000)) (some (.num 10)) (some (.num 1)) (some (.num 1)) (some (.str "G"))]

/-- C7: on the column values 1..10 with labels a,b,c,d, the quantile
edges computed at probabilities 0, .25, .5, .75, 1 are 1, 3.25, 5.5,
7.75, 10; they are strictly increasing (the four buckets are
non-overlapping and inclusive at the lowest edge), every one of the ten
values receives a label, in label order over increasing buckets
(a,a,a,b,b,c,c,d,d,d); missing values and values outside all bins receive
no category. -/
theorem bucket_edge_policy :
    computeEdges [1, 2, 3, 4, 5, 6, 7, 8, 9, 10] = [1, 13/4, 11/2, 31/4, 10] ∧
    List.Sorted (· < ·) (computeEdges [1, 2, 3, 4, 5, 6, 7, 8, 9, 10]) ∧
    (categorize_col vaGet vaSet vaCatSet ["a", "b", "c", "d"] tenVaRows).map
        (fun r => r.vote_Average_Category) =
      [some (.str "a"), some (.str "a"), some (.str "a"), some (.str "b"), some (.str "b"),
       some (.str "c"), some (.str "c"), some (.str "d"), some (.str "d"), some (.str "d")] ∧
    cutVal (computeEdges [1, 2, 3, 4, 5, 6, 7, 8, 9, 10]) ["a", "b", "c", "d"] Value.na =
      Value.na ∧
    cutVal (computeEdges [1, 2, 3, 4, 5, 6, 7, 8, 9, 10]) ["a", "b", "c", "d"]
        (Value.num 0) = Value.na ∧
    cutVal (computeEdges [1, 2, 3, 4, 5, 6, 7, 8, 9, 10]) ["a", "b", "c", "d"]
        (Value.num 11) = Value.na := by
  decide

/-! ### C8: the dashboard dataset is not the script-mode cleaned dataset -/

/-- Counterexample to C8: on the spec's own scenario row, `App.py`'s
`load_data` output differs from the `EDA.py` pipeline output (the pruned
columns survive, `Vote_Average` stays a string, no category exists). -/
theorem load_data_ne_pipeline : load_data [sampleRawRow] ≠ pipeline [sampleRawRow] := by
  decide

/-- The partial coercion `App.py` performs: `Vote_Count` and `Popularity`
only (`Vote_Average` untouched). -/
def vcPopCoerceRow (r : Row) : Row :=
  { r with
    vote_Count := r.vote_Count.map toNumericVal
    popularity := r.popularity.map toNumericVal }

/-- C8 amended: the dataset `load_data` hands to the dashboard's
rendering layer is produced by a partial pipeline only — date
normalization, numeric coercion of `Vote_Count` and `Popularity`, and
genre explosion; column pruning, `Vote_Average` coercion, quantile
categorization and null/duplicate elimination are never applied. -/
theorem load_data_partial_pipeline (d : List Row) :
    load_data d = explodeStep ((dateStep d).map vcPopCoerceRow) := by
  unfold load_data dateStep
  simp only [List.map_map]
  rfl

/-! ### Coverage of the quantile bins

When `pd.cut` runs with at least two distinct edges, every column value
lies between the lowest and highest edge (they are the extreme quantiles
of the very same values), so every non-missing value receives a label. -/

/-- Last element of a list, with a default for the empty list. -/
def lastD : List ℚ → ℚ → ℚ
  | [], d => d
  | a :: t, _ => lastD t a

theorem lastD_mem : ∀ (l : List ℚ) (d : ℚ), l ≠ [] → lastD l d ∈ l := by
  intro l
  induction l with
  | nil => intro d h; exact absurd rfl h
  | cons a t ih =>
    intro d _
    show lastD t a ∈ a :: t
    cases t with
    | nil => simp [lastD]
    | cons b t' => exact List.mem_cons_of_mem _ (ih a (by simp))

theorem lastD_irrel : ∀ {l : List ℚ}, l ≠ [] → ∀ (d d' : ℚ), lastD l d = lastD l d' := by
  intro l
  induction l with
  | nil => intro h; exact absurd rfl h
  | cons a t _ => intro _ d d'; rfl

theorem sorted_head_le {a : ℚ} {t : List ℚ} (h : List.Sorted (· ≤ ·) (a :: t)) :
    ∀ q ∈ a :: t, a ≤ q := by
  intro q hq
  rcases List.mem_cons.mp hq with rfl | hq
  · exact le_refl q
  · exact List.rel_of_sorted_cons h q hq

theorem sorted_le_lastD : ∀ {l : List ℚ}, List.Sorted (· ≤ ·) l → ∀ {q : ℚ}, q ∈ l →
    ∀ d, q ≤ lastD l d := by
  intro l
  induction l with
  | nil => intro _ q hq; simp at hq
  | cons a t ih =>
    intro h q hq d
    show q ≤ lastD t a
    cases t with
    | nil =>
      have : q = a := by simpa using hq
      subst this
      exact le_refl q
    | cons b t' =>
      rcases List.mem_cons.mp hq with rfl | hq'
      · exact List.rel_of_sorted_cons h _ (lastD_mem (b :: t') q (by simp))
      · exact ih (List.Sorted.of_cons h) hq' a

theorem getD_length_sub_one : ∀ {l : List ℚ}, l ≠ [] → ∀ (d : ℚ),
    l.getD (l.length - 1) d = lastD l d := by
  intro l
  induction l with
  | nil => intro h; exact absurd rfl h
  | cons a t ih =>
    intro _ d
    cases t with
    | nil => rfl
    | cons b t' =>
      show (a :: b :: t').getD (t'.length + 1) d = lastD (b :: t') a
      rw [List.getD_cons_succ]
      have h1 : (b :: t').getD (t'.length) d = lastD (b :: t') d := by
        simpa using ih (by simp) d
      rw [h1]
      exact lastD_irrel (by simp) d a

theorem quantileSorted_zero (xs : List ℚ) : quantileSorted xs 0 = xs.getD 0 0 := by
  simp [quantileSorted]

theorem quantileSorted_one {xs : List ℚ} (hne : xs ≠ []) :
    quantileSorted xs 1 = xs.getD (xs.length - 1) 0 := by
  have hn : 1 ≤ xs.length := List.length_pos.mpr hne
  simp only [quantileSorted, one_mul]
  have hfl : ⌊(xs.length : ℚ) - 1⌋ = (xs.length : ℤ) - 1 := by
    rw [show ((xs.length : ℚ) - 1) = (((xs.length : ℤ) - 1 : ℤ) : ℚ) by push_cast; ring,
      Int.floor_intCast]
  rw [hfl]
  have htn : ((xs.length : ℤ) - 1).toNat = xs.length - 1 := by omega
  rw [htn]
  have hz : ((xs.length : ℚ) - 1) - ((((xs.length : ℤ) - 1) : ℤ) : ℚ) = 0 := by
    push_cast
    ring
  rw [hz, zero_mul, add_zero]

theorem mem_sortDedup {l : List ℚ} {x : ℚ} : x ∈ sortDedup l ↔ x ∈ l := by
  simp [sortDedup, List.mem_insertionSort _, List.mem_dedup]

theorem sorted_computeEdges (valid : List ℚ) :
    List.Sorted (· ≤ ·) (computeEdges valid) := by
  unfold computeEdges
  split
  · simp
  · exact List.sorted_insertionSort _ _

theorem length_computeEdges_le (valid : List ℚ) : (computeEdges valid).length ≤ 5 := by
  unfold computeEdges
  split
  · simp
  · rw [sortDedup, List.length_insertionSort]
    have h1 := (List.dedup_sublist (quantilePoints.map
      (quantileSorted (valid.insertionSort (· ≤ ·))))).length_le
    simpa [quantilePoints] using h1

/-- For every non-missing value of the column, the computed edges start
no higher and end no lower than the value. -/
theorem computeEdges_head_le {valid : List ℚ} {q : ℚ} (hq : q ∈ valid) :
    ∃ e0 es, computeEdges valid = e0 :: es ∧ e0 ≤ q ∧ q ≤ lastD es e0 := by
  have hvne : valid ≠ [] := List.ne_nil_of_mem hq
  have hqs : q ∈ valid.insertionSort (· ≤ ·) := (List.mem_insertionSort _).mpr hq
  have hsne : valid.insertionSort (· ≤ ·) ≠ [] := List.ne_nil_of_mem hqs
  have hs : List.Sorted (· ≤ ·) (valid.insertionSort (· ≤ ·)) :=
    List.sorted_insertionSort _ _
  have hedges : computeEdges valid =
      sortDedup (quantilePoints.map (quantileSorted (valid.insertionSort (· ≤ ·)))) := by
    rw [computeEdges, if_neg hvne]
  have hf0mem : quantileSorted (valid.insertionSort (· ≤ ·)) 0 ∈ computeEdges valid := by
    rw [hedges]
    exact mem_sortDedup.mpr (List.mem_map_of_mem _ (by simp [quantilePoints]))
  have hf1mem : quantileSorted (valid.insertionSort (· ≤ ·)) 1 ∈ computeEdges valid := by
    rw [hedges]
    exact mem_sortDedup.mpr (List.mem_map_of_mem _ (by simp [quantilePoints]))
  have hene : computeEdges valid ≠ [] := List.ne_nil_of_mem hf0mem
  obtain ⟨e0, es, hE⟩ : ∃ e0 es, computeEdges valid = e0 :: es := by
    cases hcs : computeEdges valid with
    | nil => exact absurd hcs hene
    | cons a t => exact ⟨a, t, rfl⟩
  have hesorted : List.Sorted (· ≤ ·) (e0 :: es) := hE ▸ sorted_computeEdges valid
  -- the 0-quantile is the least value, the 1-quantile the greatest
  have hf0q : quantileSorted (valid.insertionSort (· ≤ ·)) 0 ≤ q := by
    rw [quantileSorted_zero]
    obtain ⟨a, t, hst⟩ : ∃ a t, valid.insertionSort (· ≤ ·) = a :: t := by
      cases hcs : valid.insertionSort (· ≤ ·) with
      | nil => exact absurd hcs hsne
      | cons a t => exact ⟨a, t, rfl⟩
    rw [hst]
    exact sorted_head_le (hst ▸ hs) q (hst ▸ hqs)
  have hqf1 : q ≤ quantileSorted (valid.insertionSort (· ≤ ·)) 1 := by
    rw [quantileSorted_one hsne, getD_length_sub_one hsne]
    exact sorted_le_lastD hs hqs 0
  refine ⟨e0, es, hE, ?_, ?_⟩
  · exact le_trans (sorted_head_le hesorted _ (hE ▸ hf0mem)) hf0q
  · have h1 : quantileSorted (valid.insertionSort (· ≤ ·)) 1 ≤ lastD (e0 :: es) 0 :=
      sorted_le_lastD hesorted (hE ▸ hf1mem) 0
    exact le_trans hqf1 h1

/-- Coverage of `binOf`: a value between the running lower bound and the
last edge, with enough labels, always receives a label. -/
theorem binOf_covers : ∀ (es : List ℚ) (ls : List String) (lo q : ℚ) (first : Bool),
    es.length ≤ ls.length →
    (if first then lo ≤ q else lo < q) →
    q ≤ lastD es lo →
    es ≠ [] →
    ∃ lab, binOf lo es ls q first = Value.str lab := by
  intro es
  induction es with
  | nil => intro ls lo q first _ _ _ hne; exact absurd rfl hne
  | cons hi es' ih =>
    intro ls lo q first hlen hcond hlast _
    cases ls with
    | nil => simp at hlen
    | cons lab ls' =>
      by_cases hq : q ≤ hi
      · refine ⟨lab, ?_⟩
        show (if (if first then lo ≤ q else lo < q) ∧ q ≤ hi then Value.str lab
          else binOf hi es' ls' q false) = Value.str lab
        rw [if_pos ⟨hcond, hq⟩]
      · cases es' with
        | nil =>
          exfalso
          exact hq (by simpa [lastD] using hlast)
        | cons hi2 rest =>
          have h2 : hi < q := lt_of_not_le hq
          obtain ⟨lab', hlab⟩ := ih ls' hi q false
            (by simpa using Nat.le_of_succ_le_succ hlen)
            (by simpa using h2)
            hlast
            (by simp)
          refine ⟨lab', ?_⟩
          show (if (if first then lo ≤ q else lo < q) ∧ q ≤ hi then Value.str lab
            else binOf hi (hi2 :: rest) ls' q false) = Value.str lab'
          rw [if_neg (fun hand => hq hand.2), hlab]

/-- Every non-missing value of a column categorized with at least two
distinct edges receives a label. -/
theorem cutVal_assigns {valid : List ℚ} {q : ℚ} (hq : q ∈ valid)
    (hlen : 2 ≤ (computeEdges valid).length) :
    ∃ lab, cutVal (computeEdges valid)
      (edaLabels.take ((computeEdges valid).length - 1)) (Value.num q) = Value.str lab := by
  obtain ⟨e0, es, hE, he0, hlast⟩ := computeEdges_head_le hq
  have hlen5 := length_computeEdges_le valid
  rw [hE] at hlen5 hlen ⊢
  have hesne : es ≠ [] := by
    intro h
    rw [h] at hlen
    simp at hlen
  have hlslen : es.length ≤ ((edaLabels.take ((e0 :: es).length - 1)).length) := by
    simp only [List.length_take, List.length_cons, edaLabels, Nat.add_sub_cancel]
    simp only [List.length_cons] at hlen5
    simp only [List.length_cons, List.length_nil]
    omega
  obtain ⟨lab, hlab⟩ := binOf_covers es (edaLabels.take ((e0 :: es).length - 1)) e0 q true
    hlslen (by simpa using he0) hlast hesne
  exact ⟨lab, hlab⟩

/-! ### Cleanliness of rows and its preservation -/

/-- A coerced column cell that survived row elimination: absent or
numeric. -/
def cleanNum (o : Option Value) : Prop :=
  o = none ∨ ∃ q, o = some (Value.num q)

/-- A row as it leaves the pipeline: no missing cell, and the four
coerced columns absent-or-numeric. -/
def cleanRow (r : Row) : Prop :=
  hasNa r = false ∧ cleanNum r.release_Date ∧ cleanNum r.vote_Average ∧
    cleanNum r.vote_Count ∧ cleanNum r.popularity

theorem hasNa_false_conj (r : Row) :
    hasNa r = false ↔
      (r.title ≠ some Value.na ∧ r.release_Date ≠ some Value.na ∧
       r.vote_Average ≠ some Value.na ∧ r.vote_Count ≠ some Value.na ∧
       r.popularity ≠ some Value.na ∧ r.genre ≠ some Value.na ∧
       r.overview ≠ some Value.na ∧ r.original_Language ≠ some Value.na ∧
       r.poster_Url ≠ some Value.na ∧ r.vote_Average_Category ≠ some Value.na) := by
  rw [hasNa_false_iff]
  simp [rowFields]

theorem numShape_resolve {o : Option Value} (h : numShape o) (hna : o ≠ some Value.na) :
    cleanNum o := by
  rcases h with h | h | h
  · exact Or.inl h
  · exact absurd h hna
  · exact Or.inr h

theorem cleanNum_map_toNumericVal {o : Option Value} (h : cleanNum o) :
    cleanNum (o.map toNumericVal) ∧ o.map toNumericVal ≠ some Value.na := by
  rcases h with rfl | ⟨q, rfl⟩
  · exact ⟨Or.inl rfl, by simp⟩
  · exact ⟨Or.inr ⟨q, rfl⟩, by simp [toNumericVal]⟩

theorem cleanNum_map_toDatetimeYear {o : Option Value} (h : cleanNum o) :
    cleanNum (o.map toDatetimeYear) ∧ o.map toDatetimeYear ≠ some Value.na := by
  rcases h with rfl | ⟨q, rfl⟩
  · exact ⟨Or.inl rfl, by simp⟩
  · exact ⟨Or.inr ⟨_, rfl⟩, by simp [toDatetimeYear]⟩

/-- Genre explosion only rewrites the `Genre` cell. -/
theorem explodeRow_fields {r x : Row} (hx : x ∈ explodeRow r) :
    x.title = r.title ∧ x.release_Date = r.release_Date ∧
    x.vote_Average = r.vote_Average ∧ x.vote_Count = r.vote_Count ∧
    x.popularity = r.popularity ∧ x.overview = r.overview ∧
    x.original_Language = r.original_Language ∧ x.poster_Url = r.poster_Url ∧
    x.vote_Average_Category = r.vote_Average_Category := by
  unfold explodeRow at hx
  cases hg : r.genre with
  | none =>
    rw [hg] at hx
    simp only [List.mem_singleton] at hx
    subst hx
    exact ⟨rfl, rfl, rfl, rfl, rfl, rfl, rfl, rfl, rfl⟩
  | some v =>
    rw [hg] at hx
    rcases List.mem_map.mp hx with ⟨t, _, rfl⟩
    exact ⟨rfl, rfl, rfl, rfl, rfl, rfl, rfl, rfl, rfl⟩

/-- Every row the pipeline outputs is clean. -/
theorem pipeline_mem_clean {d : List Row} {x : Row} (hx : x ∈ pipeline d) : cleanRow x := by
  rcases mem_explodeStep.mp hx with ⟨r, hr, hxr⟩
  have hc := mem_cleanState hr
  have hf := explodeRow_fields hxr
  have hna : hasNa x = false := hasNa_explodeRow hxr hc.1
  have hnef := (hasNa_false_conj r).mp hc.1
  refine ⟨hna, ?_, ?_, ?_, ?_⟩
  · rw [hf.2.1]
    exact numShape_resolve hc.2.1 hnef.2.1
  · rw [hf.2.2.1]
    exact numShape_resolve hc.2.2.1 hnef.2.2.1
  · rw [hf.2.2.2.1]
    exact numShape_resolve hc.2.2.2.1 hnef.2.2.2.1
  · rw [hf.2.2.2.2.1]
    exact numShape_resolve hc.2.2.2.2 hnef.2.2.2.2.1

/-- The column-coercion inside `categorize_col` fixes a row whose
`Vote_Average` is already absent-or-numeric. -/
theorem vaCoe_eq_self {z : Row} (hva : cleanNum z.vote_Average) :
    vaSet ((vaGet z).map toNumericVal) z = z := by
  have heta : vaSet z.vote_Average z = z := rfl
  rcases hva with h | ⟨q, h⟩
  · show vaSet ((z.vote_Average).map toNumericVal) z = z
    rw [h]
    show vaSet none z = z
    rw [← h]
    exact heta
  · show vaSet ((z.vote_Average).map toNumericVal) z = z
    rw [h]
    show vaSet (some (Value.num q)) z = z
    rw [← h]
    exact heta

/-- After date normalization, pruning and coercion, a second time around,
every row coming out of the (already clean) pipeline output is still
clean. -/
theorem secondRun_coerced_clean (d : List Row) :
    ∀ z ∈ coerceStep (pruneStep (dateStep (pipeline d))), cleanRow z := by
  intro z hz
  rcases List.mem_map.mp hz with ⟨z1, hz1, rfl⟩
  rcases List.mem_map.mp hz1 with ⟨z2, hz2, rfl⟩
  rcases List.mem_map.mp hz2 with ⟨r0, hr0, rfl⟩
  have hc := pipeline_mem_clean hr0
  have hnef := (hasNa_false_conj r0).mp hc.1
  have hrd := cleanNum_map_toDatetimeYear hc.2.1
  have hva := cleanNum_map_toNumericVal hc.2.2.1
  have hvc := cleanNum_map_toNumericVal hc.2.2.2.1
  have hpop := cleanNum_map_toNumericVal hc.2.2.2.2
  refine ⟨?_, hrd.1, hva.1, hvc.1, hpop.1⟩
  rw [hasNa_false_conj]
  exact ⟨hnef.1, hrd.2, hva.2, hvc.2, hpop.2, hnef.2.2.2.2.2.1, by simp [coerceRow, pruneRow],
    by simp [coerceRow, pruneRow], by simp [coerceRow, pruneRow],
    hnef.2.2.2.2.2.2.2.2.2⟩

/-- Categorizing a dataset of clean rows yields only rows without
missing cells: the recomputed bins cover every present value. -/
theorem categorize_all_clean {l : List Row} (hall : ∀ z ∈ l, cleanRow z) :
    ∀ y ∈ categorize_col vaGet vaSet vaCatSet edaLabels l, hasNa y = false := by
  have hrows' : l.map (fun r => vaSet ((vaGet r).map toNumericVal) r) = l := by
    calc l.map (fun r => vaSet ((vaGet r).map toNumericVal) r)
        = l.map (fun r => r) :=
          List.map_congr_left (fun z hz => vaCoe_eq_self (hall z hz).2.2.1)
      _ = l := List.map_id' l
  intro y hy
  simp only [categorize_col] at hy
  rw [hrows'] at hy
  split at hy
  · exact (hall y hy).1
  · rename_i hlen
    rcases List.mem_map.mp hy with ⟨z, hz, rfl⟩
    have hcz := hall z hz
    have hnef := (hasNa_false_conj z).mp hcz.1
    rw [hasNa_false_conj]
    refine ⟨hnef.1, hnef.2.1, hnef.2.2.1, hnef.2.2.2.1, hnef.2.2.2.2.1, hnef.2.2.2.2.2.1,
      hnef.2.2.2.2.2.2.1, hnef.2.2.2.2.2.2.2.1, hnef.2.2.2.2.2.2.2.2.1, ?_⟩
    show ((vaGet z).map _) ≠ some Value.na
    rcases hcz.2.2.1 with h | ⟨q, h⟩
    · have h' : vaGet z = none := h
      rw [h']
      simp
    · have h' : vaGet z = some (Value.num q) := h
      rw [h']
      have hqv : q ∈ l.filterMap (fun r =>
          match vaGet r with
          | some (.num q) => some q
          | _ => none) := by
        apply List.mem_filterMap.mpr
        exact ⟨z, hz, by rw [h']⟩
      obtain ⟨lab, hlab⟩ := cutVal_assigns hqv (by omega)
      rw [Option.map_some', hlab]
      simp

/-! ### C3: the pipeline is not idempotent -/

/-- Counterexample to C3: re-running the pipeline on its own output
rewrites `Release_Date` — the year 2020 is re-parsed by `pd.to_datetime`
as 2020 nanoseconds past the epoch, i.e. 1970. -/
theorem pipeline_not_idempotent : pipeline (pipeline [dramaRow]) ≠ pipeline [dramaRow] := by
  decide

/-- C3 amended: the second run is not the identity (it rewrites
`Release_Date` and may merge re-duplicated rows), but it introduces no
new missing values and its row-elimination step drops nothing: `dropna`
on the second run's pre-elimination state is the identity. -/
theorem second_run_dropna_noop (d : List Row) :
    dropnaStep (beforeDropna (pipeline d)) = beforeDropna (pipeline d) := by
  apply List.filter_eq_self.mpr
  intro y hy
  have h := categorize_all_clean (secondRun_coerced_clean d) y hy
  simp [h]

/-! ### C10: empty genre tokens survive into the final output -/

/-- Overwriting the derived category cell of a clean row with a covered
cut keeps the row free of missing cells, and leaves its genre alone. -/
theorem hasNa_catSet_clean {z : Row} (hcz : cleanRow z) {edges : List ℚ} {ls : List String}
    (hcut : ∀ q, z.vote_Average = some (Value.num q) →
      ∃ lab, cutVal edges ls (Value.num q) = Value.str lab) :
    hasNa (vaCatSet ((vaGet z).map (cutVal edges ls)) z) = false := by
  have hnef := (hasNa_false_conj z).mp hcz.1
  rw [hasNa_false_conj]
  refine ⟨hnef.1, hnef.2.1, hnef.2.2.1, hnef.2.2.2.1, hnef.2.2.2.2.1, hnef.2.2.2.2.2.1,
    hnef.2.2.2.2.2.2.1, hnef.2.2.2.2.2.2.2.1, hnef.2.2.2.2.2.2.2.2.1, ?_⟩
  show ((vaGet z).map (cutVal edges ls)) ≠ some Value.na
  rcases hcz.2.2.1 with h | ⟨q, h⟩
  · have h' : vaGet z = none := h
    rw [h']
    simp
  · have h' : vaGet z = some (Value.num q) := h
    obtain ⟨lab, hlab⟩ := hcut q h
    rw [h', Option.map_some', hlab]
    simp

/-- A clean single member of an arbitrary dataset survives
categorization with its genre intact and no missing cell. -/
theorem categorize_exists_clean {l : List Row} {z : Row} (hz : z ∈ l) (hcz : cleanRow z) :
    ∃ y ∈ categorize_col vaGet vaSet vaCatSet edaLabels l,
      hasNa y = false ∧ y.genre = z.genre := by
  have hvz : vaSet ((vaGet z).map toNumericVal) z = z := vaCoe_eq_self hcz.2.2.1
  have hz' : z ∈ l.map (fun r => vaSet ((vaGet r).map toNumericVal) r) := by
    have h1 : vaSet ((vaGet z).map toNumericVal) z ∈
        l.map (fun r => vaSet ((vaGet r).map toNumericVal) r) :=
      List.mem_map_of_mem (fun r => vaSet ((vaGet r).map toNumericVal) r) hz
    rwa [hvz] at h1
  simp only [categorize_col]
  split
  · exact ⟨z, hz', hcz.1, rfl⟩
  · rename_i hlen
    refine ⟨_, List.mem_map_of_mem _ hz', ?_, ?_⟩
    · refine hasNa_catSet_clean hcz ?_
      intro q hq
      refine cutVal_assigns ?_ (by omega)
      refine List.mem_filterMap.mpr ⟨z, hz', ?_⟩
      show (match vaGet z with
        | some (.num q) => some q
        | _ => none) = some q
      rw [show vaGet z = some (Value.num q) from hq]
    · rfl

/-- C10: because row elimination runs before genre explosion, an
otherwise complete row whose `Genre` splits into an empty token (e.g. a
trailing `", "`) contributes an output row whose `Genre` is the empty
string — the empty string is not a missing value, so the row survives
into the final cleaned output. -/
theorem empty_genre_token_survives (d : List Row) (r : Row) (g : String)
    (hr : r ∈ d)
    (hclean : cleanRow (coerceRow (pruneRow (dateRow r))))
    (hg : r.genre = some (Value.str g))
    (htok : "" ∈ pySplitCommaSpace g) :
    ∃ x ∈ pipeline d, x.genre = some (Value.str "") := by
  have hz : coerceRow (pruneRow (dateRow r)) ∈ coerceStep (pruneStep (dateStep d)) :=
    List.mem_map_of_mem _ (List.mem_map_of_mem _ (List.mem_map_of_mem _ hr))
  obtain ⟨y, hy, hyna, hygenre⟩ := categorize_exists_clean hz hclean
  have hy2 : y ∈ dropnaStep (beforeDropna d) := List.mem_filter.mpr ⟨hy, by simp [hyna]⟩
  have hy3 : y ∈ dropDups (dropnaStep (beforeDropna d)) := mem_dropDups.mpr hy2
  have hygen : y.genre = some (Value.str g) := by
    rw [hygenre]
    exact hg
  refine ⟨{ y with genre := some (Value.str "") }, ?_, rfl⟩
  refine mem_explodeStep.mpr ⟨y, hy3, ?_⟩
  unfold explodeRow
  rw [hygen]
  exact List.mem_map.mpr ⟨"", htok, rfl⟩

/-- An otherwise complete raw row whose `Genre` ends in the delimiter. -/
def trailingRow : Row :=
  mkRow (some (.str "X")) (some (.str "2020-01-01")) (some (.num 7)) (some (.num 10))
    (some (.num 5)) (some (.str "Action, "))

/-- Witness for C10: a `Genre` of `"Action, "` puts a row with empty
`Genre` into the final output. -/
theorem empty_genre_token_survives_witness :
    ∃ x ∈ pipeline [trailingRow], x.genre = some (Value.str "") :=
  empty_genre_token_survives [trailingRow] trailingRow "Action, " (by decide)
    ⟨by decide, Or.inr ⟨_, rfl⟩, Or.inr ⟨_, rfl⟩, Or.inr ⟨_, rfl⟩, Or.inr ⟨_, rfl⟩⟩
    rfl (by decide)

end MovieEDA
